import Mathlib

/-!
Verification of the event-sourced write path of the Personal-Finance-Tracker
repository (`src/domain/events_store.py`), as a shallow embedding.

Part 1: the Codec (`EventEncoder` + `json.loads`).
Python values that can appear in `asdict(event)` are modelled by `PyVal`;
JSON documents produced by `json.dumps` are modelled structurally by `JVal`
(`json.dumps` is injective on such documents and `json.loads` inverts the
textual layer, so working at the level of parsed JSON values is lossless).
-/

/-- A JSON value, the result of serialising with `json.dumps(..., cls=EventEncoder)`
viewed structurally (strings, numbers, booleans, null, objects, arrays). -/
inductive JVal where
  | str (s : String)
  | int (n : Int)
  | bool (b : Bool)
  | null
  | obj (fields : List (String × JVal))
  | arr (elems : List JVal)

/-- A Python value reachable inside `asdict(event)`:
JSON-native scalars, plus the four classes `EventEncoder.default` special-cases
(`UUID`, `Decimal`, `EventMetadata`, `datetime`), objects exposing a `.value`
attribute (the duck-typed enum fallback at `events_store.py:40`), dicts, lists,
`None`, and `unknown` for any object with none of these shapes (which
`json.JSONEncoder.default` rejects with `TypeError`).
A `Decimal` is carried by its exact `str()` form, a `datetime` by its
`isoformat()` string, a `UUID` by a numeric code. -/
inductive PyVal where
  | str (s : String)
  | int (n : Int)
  | bool (b : Bool)
  | noneV
  | uuid (u : Nat)
  | decimal (s : String)
  | datetime (iso : String)
  | metadata (fields : List (String × PyVal))
  | withValue (v : PyVal)
  | dict (fields : List (String × PyVal))
  | list (elems : List PyVal)
  | unknown

/-- `str(UUID)`: the lowercase hyphenated rendering; modelled by any injective
rendering of the UUID code. -/
def uuidStr (u : Nat) : String := toString u

mutual
/-- `json.dumps(-, cls=EventEncoder)` (events_store.py:29-43): JSON-native
values are emitted as such; `EventEncoder.default` maps `UUID` and `Decimal`
to their `str()`, `EventMetadata` to `asdict` (an object, whose field values
are then encoded recursively), `datetime` to `isoformat()`, any other object
carrying a `.value` attribute to that attribute (re-encoded), and everything
else reaches `json.JSONEncoder.default`, which raises `TypeError` (`Option.none`). -/
def encodePy : PyVal → Option JVal
  | .str s => some (.str s)
  | .int n => some (.int n)
  | .bool b => some (.bool b)
  | .noneV => some .null
  | .uuid u => some (.str (uuidStr u))
  | .decimal s => some (.str s)
  | .datetime iso => some (.str iso)
  | .metadata fs => (encodeFields fs).map .obj
  | .withValue v => encodePy v
  | .dict fs => (encodeFields fs).map .obj
  | .list es => (encodeList es).map .arr
  | .unknown => Option.none

def encodeFields : List (String × PyVal) → Option (List (String × JVal))
  | [] => some []
  | (k, v) :: rest =>
    match encodePy v, encodeFields rest with
    | some jv, some jrest => some ((k, jv) :: jrest)
    | _, _ => Option.none

def encodeList : List PyVal → Option (List JVal)
  | [] => some []
  | v :: rest =>
    match encodePy v, encodeList rest with
    | some jv, some jrest => some (jv :: jrest)
    | _, _ => Option.none
end

mutual
/-- `json.loads` (events_store.py:246): a generic decode producing plain
Python values — strings stay strings (no `Decimal`/`datetime`/`UUID`
reconstruction), objects become dicts, arrays become lists. -/
def decodeJ : JVal → PyVal
  | .str s => .str s
  | .int n => .int n
  | .bool b => .bool b
  | .null => .noneV
  | .obj fs => .dict (decodeJFields fs)
  | .arr es => .list (decodeJList es)

def decodeJFields : List (String × JVal) → List (String × PyVal)
  | [] => []
  | (k, v) :: rest => (k, decodeJ v) :: decodeJFields rest

def decodeJList : List JVal → List PyVal
  | [] => []
  | v :: rest => decodeJ v :: decodeJList rest
end

mutual
/-- The shape a Python value takes after the encode-then-`json.loads` round
trip: `UUID`, `Decimal` and `datetime` fields collapse to their exact string
forms, `.value`-carrying objects to the encoding of their attribute, nested
records to dicts; JSON-native scalars are unchanged. -/
def jsonShape : PyVal → PyVal
  | .str s => .str s
  | .int n => .int n
  | .bool b => .bool b
  | .noneV => .noneV
  | .uuid u => .str (uuidStr u)
  | .decimal s => .str s
  | .datetime iso => .str iso
  | .metadata fs => .dict (jsonShapeFields fs)
  | .withValue v => jsonShape v
  | .dict fs => .dict (jsonShapeFields fs)
  | .list es => .list (jsonShapeList es)
  | .unknown => .unknown

def jsonShapeFields : List (String × PyVal) → List (String × PyVal)
  | [] => []
  | (k, v) :: rest => (k, jsonShape v) :: jsonShapeFields rest

def jsonShapeList : List PyVal → List PyVal
  | [] => []
  | v :: rest => jsonShape v :: jsonShapeList rest
end

mutual
/-- Whether a value contains, anywhere, an object with none of the shapes
`EventEncoder` handles — exactly the values on which serialisation raises. -/
def hasUnknown : PyVal → Bool
  | .metadata fs => hasUnknownFields fs
  | .withValue v => hasUnknown v
  | .dict fs => hasUnknownFields fs
  | .list es => hasUnknownList es
  | .unknown => true
  | _ => false

def hasUnknownFields : List (String × PyVal) → Bool
  | [] => false
  | (_, v) :: rest => hasUnknown v || hasUnknownFields rest

def hasUnknownList : List PyVal → Bool
  | [] => false
  | v :: rest => hasUnknown v || hasUnknownList rest
end

example : encodePy (PyVal.decimal "10000.00") = some (JVal.str "10000.00") := rfl
example : decodeJ (JVal.str "10000.00") = PyVal.str "10000.00" := rfl

/-!
Part 2: the Event Store (`EventStore.append_events`, `EventStore.load_events`)
and the Outbox Relay (`OutboxRelay.process_outbox`).

UUID-valued columns (`event_id`, `aggregate_id`, `tenant_id`) are modelled by
`Nat` codes, timestamps by `Int`. The database is the pair of the `events` and
`outbox` tables, each a list of rows in physical (unspecified) table order,
plus the `BIGSERIAL` counter that assigns outbox `id`s. A transaction is
atomic: a call returns the committed database, or on failure the original
database (rollback).
-/

/-- A row of the `events` table (schema of spec §6; insert at
events_store.py:159-180). -/
structure EventRow where
  event_id : Nat
  aggregate_id : Nat
  aggregate_type : String
  event_type : String
  event_data : JVal
  version : Int
  tenant_id : Nat
  created_at : Int

/-- A row of the `outbox` table (schema of spec §6; insert at
events_store.py:185-200; `id` is `BIGSERIAL`, `created_at` is `DEFAULT now()`). -/
structure OutboxRow where
  id : Nat
  event_id : Nat
  aggregate_type : String
  event_type : String
  event_data : JVal
  tenant_id : Nat
  created_at : Int

/-- Database state: both tables plus the serial counter for outbox ids. -/
structure DB where
  events : List EventRow
  outbox : List OutboxRow
  nextOutboxId : Nat

/-- A domain event as `append_events` consumes it: `metadata.event_id`,
`metadata.timestamp`, the class name (`event.__class__.__name__`), and
`asdict(event)` as the payload to be serialised. -/
structure DomainEvent where
  event_id : Nat
  timestamp : Int
  className : String
  payload : PyVal

/-- `SELECT ... FROM events WHERE aggregate_id = $1 AND tenant_id = $2`:
the rows of one aggregate's stream within one tenant, in table order. -/
def streamRows (db : DB) (aggregate_id tenant_id : Nat) : List EventRow :=
  db.events.filter (fun r => r.aggregate_id == aggregate_id && r.tenant_id == tenant_id)

/-- `SELECT COALESCE(MAX(version), 0) FROM events WHERE aggregate_id = $1 AND
tenant_id = $2` (events_store.py:138-146). -/
def currentVersion (db : DB) (aggregate_id tenant_id : Nat) : Int :=
  match (streamRows db aggregate_id tenant_id).map (fun r => r.version) with
  | [] => 0
  | v :: vs => vs.foldl max v

/-- Outcome of `append_events`: the returned new version, the
`ConcurrencyError(aggregate_id, expected, actual)` raise
(events_store.py:148-153), or a `TypeError` from `json.dumps` on an
unserialisable payload. -/
inductive AppendOutcome where
  | ok (newVersion : Int)
  | conflict (aggregate_id : Nat) (expected actual : Int)
  | encodeError

/-- The insert loop of `append_events` (events_store.py:154-201): for each
event, increment `new_version`, serialise the payload, insert one `events`
row and one `outbox` row with the same `event_id`, `event_type`, `event_data`
and `tenant_id`. `Option.none` models a raised serialisation error (the whole
transaction rolls back). `now` is the database clock filling the outbox
`created_at DEFAULT now()`. -/
def appendLoop (aggregate_id : Nat) (aggregate_type : String) (tenant_id : Nat)
    (now : Int) : DB → Int → List DomainEvent → Option (Int × DB)
  | db, ver, [] => some (ver, db)
  | db, ver, e :: rest =>
    match encodePy e.payload with
    | Option.none => Option.none
    | some data =>
      appendLoop aggregate_id aggregate_type tenant_id now
        { events := db.events ++
            [{ event_id := e.event_id, aggregate_id := aggregate_id,
               aggregate_type := aggregate_type, event_type := e.className,
               event_data := data, version := ver + 1, tenant_id := tenant_id,
               created_at := e.timestamp }],
          outbox := db.outbox ++
            [{ id := db.nextOutboxId, event_id := e.event_id,
               aggregate_type := aggregate_type, event_type := e.className,
               event_data := data, tenant_id := tenant_id, created_at := now }],
          nextOutboxId := db.nextOutboxId + 1 }
        (ver + 1) rest

/-- `EventStore.append_events` (events_store.py:118-201): read the current
version, raise `ConcurrencyError` on mismatch (rollback: database unchanged),
otherwise run the insert loop starting from `new_version = expected_version`
and return the final `new_version` with the committed database. -/
def appendEvents (db : DB) (aggregate_id : Nat) (aggregate_type : String)
    (expected_version : Int) (new_events : List DomainEvent) (tenant_id : Nat)
    (now : Int) : AppendOutcome × DB :=
  let current := currentVersion db aggregate_id tenant_id
  if current ≠ expected_version then
    (.conflict aggregate_id expected_version current, db)
  else
    match appendLoop aggregate_id aggregate_type tenant_id now db expected_version new_events with
    | Option.none => (.encodeError, db)
    | some (ver, db') => (.ok ver, db')

/-- One record of the list `load_events` returns (events_store.py:242-250):
`event_data` is the `json.loads` of the stored payload. -/
structure LoadedRecord where
  event_id : Nat
  event_type : String
  event_data : PyVal
  version : Int
  created_at : Int

/-- Outcome of `load_events`: the record list, or the
`AggregateNotFoundError(aggregate_id, aggregate_type)` raise
(events_store.py:239-240). -/
inductive LoadOutcome where
  | ok (records : List LoadedRecord)
  | notFound (aggregate_id : Nat) (aggregate_type : String)

/-- Building one returned dictionary from a fetched row
(events_store.py:243-249). -/
def rowToRecord (r : EventRow) : LoadedRecord :=
  { event_id := r.event_id, event_type := r.event_type,
    event_data := decodeJ r.event_data, version := r.version,
    created_at := r.created_at }

/-- `ORDER BY version ASC` comparison on event rows. -/
def verLE (a b : EventRow) : Prop := a.version ≤ b.version

instance : DecidableRel verLE := fun a b => Int.decLe a.version b.version
instance : IsTotal EventRow verLE := ⟨fun a b => Int.le_total a.version b.version⟩
instance : IsTrans EventRow verLE := ⟨fun _ _ _ h1 h2 => le_trans h1 h2⟩

/-- `EventStore.load_events` (events_store.py:203-251): fetch the stream
sorted by `version ASC`, raise `AggregateNotFoundError` when no row matches,
otherwise return the records in fetched order. (`ORDER BY` on a single
column yields some order among equal keys; the model resolves that
nondeterminism with a stable sort of the physical table order.) -/
def loadEvents (db : DB) (aggregate_id : Nat) (aggregate_type : String)
    (tenant_id : Nat) : LoadOutcome :=
  let rows := List.insertionSort verLE (streamRows db aggregate_id tenant_id)
  if rows.isEmpty then .notFound aggregate_id aggregate_type
  else .ok (rows.map rowToRecord)

/-- `ORDER BY created_at ASC` comparison on outbox rows — the code's relay
query (events_store.py:291-299) orders by `created_at` alone. -/
def timeLE (a b : OutboxRow) : Prop := a.created_at ≤ b.created_at

instance : DecidableRel timeLE := fun a b => Int.decLe a.created_at b.created_at
instance : IsTotal OutboxRow timeLE := ⟨fun a b => Int.le_total a.created_at b.created_at⟩
instance : IsTrans OutboxRow timeLE := ⟨fun _ _ _ h1 h2 => le_trans h1 h2⟩

/-- `SELECT ... FROM outbox ORDER BY created_at ASC LIMIT $1`
(events_store.py:291-299): stable sort of the physical table order by
`created_at` only, then the first `batch_size` rows. -/
def fetchOutbox (outbox : List OutboxRow) (batchSize : Nat) : List OutboxRow :=
  (List.insertionSort timeLE outbox).take batchSize

/-- The per-row loop of `process_outbox` (events_store.py:306-331): `busOk r`
tells whether the `send_and_wait` publish of row `r` returns acknowledgment;
on success the row is deleted by `id` and the counter incremented, on failure
(the `except` branch) the table is left untouched and the loop continues with
the next row. Returns `processed_count` and the resulting outbox table. -/
def relayLoop (busOk : OutboxRow → Bool) :
    List OutboxRow → List OutboxRow → Nat × List OutboxRow
  | table, [] => (0, table)
  | table, r :: rs =>
    if busOk r then
      let step := relayLoop busOk (table.filter (fun x => x.id != r.id)) rs
      (step.1 + 1, step.2)
    else
      relayLoop busOk table rs

/-- `OutboxRelay.process_outbox` (events_store.py:279-331): fetch at most
`batch_size` rows and run the publish loop over them in fetched order.
(The code's early `return 0` on an empty fetch coincides with the loop on
the empty list.) -/
def processOutbox (outbox : List OutboxRow) (batchSize : Nat)
    (busOk : OutboxRow → Bool) : Nat × List OutboxRow :=
  relayLoop busOk outbox (fetchOutbox outbox batchSize)

/-!
Part 3: specification-level descriptions of what a successful append commits,
used to state the theorems, plus concrete sample data used by the witnesses.
-/

/-- Serialising every payload of a batch, in order; `Option.none` as soon as
one payload is unserialisable. -/
def encodedDatas : List DomainEvent → Option (List JVal)
  | [] => some []
  | e :: es =>
    match encodePy e.payload, encodedDatas es with
    | some d, some ds => some (d :: ds)
    | _, _ => Option.none

/-- The `events` rows a successful append starting from version `ver` commits,
one per event in input order, versions `ver + 1, ver + 2, …`. -/
def newEventRows (aggregate_id : Nat) (aggregate_type : String) (tenant_id : Nat) :
    Int → List DomainEvent → List JVal → List EventRow
  | ver, e :: es, d :: ds =>
    { event_id := e.event_id, aggregate_id := aggregate_id,
      aggregate_type := aggregate_type, event_type := e.className,
      event_data := d, version := ver + 1, tenant_id := tenant_id,
      created_at := e.timestamp } ::
      newEventRows aggregate_id aggregate_type tenant_id (ver + 1) es ds
  | _, _, _ => []

/-- The `outbox` rows the same append commits, one per event in input order,
with serially assigned ids starting at `nid`. -/
def newOutboxRows (aggregate_type : String) (tenant_id : Nat) (now : Int) :
    Nat → List DomainEvent → List JVal → List OutboxRow
  | nid, e :: es, d :: ds =>
    { id := nid, event_id := e.event_id, aggregate_type := aggregate_type,
      event_type := e.className, event_data := d, tenant_id := tenant_id,
      created_at := now } ::
      newOutboxRows aggregate_type tenant_id now (nid + 1) es ds
  | _, _, _ => []

/-- The fields C2 requires the paired rows to share, read off an event row. -/
def eKey (r : EventRow) : Nat × String × JVal × Nat :=
  (r.event_id, r.event_type, r.event_data, r.tenant_id)

/-- The same fields read off an outbox row. -/
def oKey (r : OutboxRow) : Nat × String × JVal × Nat :=
  (r.event_id, r.event_type, r.event_data, r.tenant_id)

/-- Sample domain event: an `AccountCreated` with a decimal balance. -/
def sampleEv1 : DomainEvent :=
  { event_id := 101, timestamp := 1000, className := "AccountCreated",
    payload := PyVal.dict
      [("aggregate_id", PyVal.uuid 7),
       ("initial_balance", PyVal.decimal "10000.00"),
       ("currency", PyVal.withValue (PyVal.str "NOK"))] }

/-- Sample domain event: a rename. -/
def sampleEv2 : DomainEvent :=
  { event_id := 102, timestamp := 1001, className := "AccountRenamed",
    payload := PyVal.dict [("new_name", PyVal.str "Ops")] }

/-- The empty database. -/
def emptyDB : DB := { events := [], outbox := [], nextOutboxId := 1 }

/-- An event row at version 1 of aggregate 7, tenant 1. -/
def sampleRowV1 : EventRow :=
  { event_id := 101, aggregate_id := 7, aggregate_type := "Account",
    event_type := "AccountCreated",
    event_data := JVal.obj [("initial_balance", JVal.str "10000.00")],
    version := 1, tenant_id := 1, created_at := 1000 }

/-- An event row at version 2 of aggregate 7, tenant 1. -/
def sampleRowV2 : EventRow :=
  { event_id := 102, aggregate_id := 7, aggregate_type := "Account",
    event_type := "AccountRenamed", event_data := JVal.obj [("new_name", JVal.str "Ops")],
    version := 2, tenant_id := 1, created_at := 1001 }

/-- An event row of a different tenant (tenant 2) with the same aggregate id 7. -/
def sampleRowOtherTenant : EventRow :=
  { event_id := 103, aggregate_id := 7, aggregate_type := "Account",
    event_type := "AccountCreated", event_data := JVal.null,
    version := 1, tenant_id := 2, created_at := 1002 }

/-- Database holding versions 2 and 1 of aggregate 7 / tenant 1 in scrambled
physical order, plus a colliding aggregate of tenant 2. -/
def sampleDB : DB :=
  { events := [sampleRowV2, sampleRowOtherTenant, sampleRowV1],
    outbox := [], nextOutboxId := 1 }

/-- Three outbox rows with distinct ids and increasing `created_at`. -/
def obRow1 : OutboxRow :=
  { id := 1, event_id := 101, aggregate_type := "Account",
    event_type := "AccountCreated", event_data := JVal.null,
    tenant_id := 1, created_at := 10 }

def obRow2 : OutboxRow :=
  { id := 2, event_id := 102, aggregate_type := "Account",
    event_type := "AccountRenamed", event_data := JVal.null,
    tenant_id := 1, created_at := 20 }

def obRow3 : OutboxRow :=
  { id := 3, event_id := 103, aggregate_type := "Budget",
    event_type := "BudgetCreated", event_data := JVal.null,
    tenant_id := 1, created_at := 30 }

/-- Outbox table for the relay witness. -/
def sampleOutbox : List OutboxRow := [obRow2, obRow1, obRow3]

/-- Two outbox rows with equal `created_at` whose physical order has the
larger id first. -/
def c8rowA : OutboxRow :=
  { id := 2, event_id := 20, aggregate_type := "Account",
    event_type := "AccountCreated", event_data := JVal.null,
    tenant_id := 1, created_at := 5 }

def c8rowB : OutboxRow :=
  { id := 1, event_id := 10, aggregate_type := "Account",
    event_type := "AccountCreated", event_data := JVal.null,
    tenant_id := 1, created_at := 5 }

def c8table : List OutboxRow := [c8rowA, c8rowB]

/-- Payload with a decimal field, for the round-trip counterexample. -/
def c9payload : PyVal := PyVal.dict [("initial_balance", PyVal.decimal "10000.00")]

/-- A bus behaviour for the relay witness: publishing fails exactly for the
row with id 1. -/
def sampleBusOk : OutboxRow → Bool := fun r => r.id != 1

/-- The serialised payloads of `[sampleEv1, sampleEv2]`. -/
def sampleDatas : List JVal :=
  [JVal.obj [("aggregate_id", JVal.str (uuidStr 7)),
             ("initial_balance", JVal.str "10000.00"),
             ("currency", JVal.str "NOK")],
   JVal.obj [("new_name", JVal.str "Ops")]]

/-!
Part 4: helper lemmas about the append path.
-/

theorem encodedDatas_length : ∀ (evs : List DomainEvent) (ds : List JVal),
    encodedDatas evs = some ds → ds.length = evs.length := by
  intro evs
  induction evs with
  | nil => intro ds h; simp [encodedDatas] at h; subst h; rfl
  | cons e es ih =>
    intro ds h
    cases hd : encodePy e.payload with
    | none => simp [encodedDatas, hd] at h
    | some d =>
      cases hds : encodedDatas es with
      | none => simp [encodedDatas, hd, hds] at h
      | some ds' =>
        simp [encodedDatas, hd, hds] at h
        subst h
        simp [ih ds' hds]

theorem appendLoop_spec (agg : Nat) (typ : String) (ten : Nat) (now : Int) :
    ∀ (evs : List DomainEvent) (ds : List JVal) (db : DB) (ver : Int),
      encodedDatas evs = some ds →
      appendLoop agg typ ten now db ver evs =
        some (ver + evs.length,
          { events := db.events ++ newEventRows agg typ ten ver evs ds,
            outbox := db.outbox ++ newOutboxRows typ ten now db.nextOutboxId evs ds,
            nextOutboxId := db.nextOutboxId + evs.length }) := by
  intro evs
  induction evs with
  | nil =>
    intro ds db ver h
    simp [encodedDatas] at h
    subst h
    simp [appendLoop, newEventRows, newOutboxRows]
  | cons e es ih =>
    intro ds db ver h
    cases hd : encodePy e.payload with
    | none => simp [encodedDatas, hd] at h
    | some d =>
      cases hds : encodedDatas es with
      | none => simp [encodedDatas, hd, hds] at h
      | some ds' =>
        simp only [encodedDatas, hd, hds] at h
        simp only [Option.some.injEq] at h
        subst h
        simp only [appendLoop, hd]
        rw [ih ds' _ (ver + 1) hds]
        simp only [newEventRows, newOutboxRows, Option.some.injEq, Prod.mk.injEq,
          DB.mk.injEq, List.length_cons, List.append_assoc, List.singleton_append]
        refine ⟨by push_cast; ring, trivial, trivial, by omega⟩

theorem newRows_map_keys (agg : Nat) (typ : String) (ten : Nat) (now : Int) :
    ∀ (evs : List DomainEvent) (ds : List JVal) (ver : Int) (nid : Nat),
      (newEventRows agg typ ten ver evs ds).map eKey =
        (newOutboxRows typ ten now nid evs ds).map oKey := by
  intro evs
  induction evs with
  | nil => intro ds ver nid; simp [newEventRows, newOutboxRows]
  | cons e es ih =>
    intro ds ver nid
    cases ds with
    | nil => simp [newEventRows, newOutboxRows]
    | cons d ds' =>
      simp only [newEventRows, newOutboxRows, List.map_cons, eKey, oKey, List.cons.injEq]
      exact ⟨trivial, ih ds' (ver + 1) (nid + 1)⟩

theorem newEventRows_length (agg : Nat) (typ : String) (ten : Nat) :
    ∀ (evs : List DomainEvent) (ds : List JVal) (ver : Int),
      ds.length = evs.length →
      (newEventRows agg typ ten ver evs ds).length = evs.length := by
  intro evs
  induction evs with
  | nil => intro ds ver _; simp [newEventRows]
  | cons e es ih =>
    intro ds ver h
    cases ds with
    | nil => simp at h
    | cons d ds' =>
      simp only [List.length_cons] at h
      simp [newEventRows, ih ds' (ver + 1) (by omega)]

theorem newOutboxRows_length (typ : String) (ten : Nat) (now : Int) :
    ∀ (evs : List DomainEvent) (ds : List JVal) (nid : Nat),
      ds.length = evs.length →
      (newOutboxRows typ ten now nid evs ds).length = evs.length := by
  intro evs
  induction evs with
  | nil => intro ds nid _; simp [newOutboxRows]
  | cons e es ih =>
    intro ds nid h
    cases ds with
    | nil => simp at h
    | cons d ds' =>
      simp only [List.length_cons] at h
      simp [newOutboxRows, ih ds' (nid + 1) (by omega)]

theorem newEventRows_map_version (agg : Nat) (typ : String) (ten : Nat) :
    ∀ (evs : List DomainEvent) (ds : List JVal) (ver : Int),
      ds.length = evs.length →
      (newEventRows agg typ ten ver evs ds).map (fun r => r.version) =
        (List.range evs.length).map (fun i : Nat => ver + 1 + (i : Int)) := by
  intro evs
  induction evs with
  | nil => intro ds ver _; simp [newEventRows]
  | cons e es ih =>
    intro ds ver h
    cases ds with
    | nil => simp at h
    | cons d ds' =>
      simp only [List.length_cons] at h
      simp only [List.length_cons]
      rw [List.range_succ_eq_map]
      simp only [newEventRows, List.map_cons, List.map_map]
      rw [ih ds' (ver + 1) (by omega)]
      congr 1
      · push_cast; ring
      · refine List.map_congr_left ?_
        intro i _
        simp only [Function.comp_apply]
        push_cast
        ring

theorem foldl_max_le_init : ∀ (vs : List Int) (v : Int), v ≤ vs.foldl max v := by
  intro vs
  induction vs with
  | nil => intro v; exact le_refl v
  | cons w ws ih =>
    intro v
    calc v ≤ max v w := le_max_left v w
      _ ≤ ws.foldl max (max v w) := ih (max v w)

theorem currentVersion_of_empty_stream (db : DB) (agg ten : Nat)
    (h : streamRows db agg ten = []) : currentVersion db agg ten = 0 := by
  simp [currentVersion, h]

theorem currentVersion_nonneg (db : DB) (agg ten : Nat)
    (hpos : ∀ r ∈ db.events, 0 < r.version) : 0 ≤ currentVersion db agg ten := by
  unfold currentVersion
  cases hm : (streamRows db agg ten).map (fun r => r.version) with
  | nil => simp
  | cons v vs =>
    have hv : v ∈ (streamRows db agg ten).map (fun r => r.version) := by
      rw [hm]; exact List.mem_cons_self _ _
    obtain ⟨r, hr, hrv⟩ := List.mem_map.mp hv
    have hre : r ∈ db.events := (List.mem_filter.mp hr).1
    have h0 : (0 : Int) < v := hrv ▸ hpos r hre
    calc (0 : Int) ≤ v := le_of_lt h0
      _ ≤ vs.foldl max v := foldl_max_le_init vs v

/-!
Part 5: the claims.
-/

/-- C1: whenever the stream's current version — the `COALESCE(MAX(version), 0)`
read scoped to the tenant and aggregate — differs from `expected_version`,
`append_events` fails with a `ConcurrencyError` carrying the aggregate id, the
expected version and the actual current version, and the transaction rolls
back: the database, events and outbox tables alike, is returned unchanged, so
no row from the call is persisted. -/
theorem append_concurrency_conflict_rolls_back (db : DB) (agg : Nat)
    (typ : String) (expected : Int) (evs : List DomainEvent) (ten : Nat)
    (now : Int) (h : currentVersion db agg ten ≠ expected) :
    appendEvents db agg typ expected evs ten now =
      (AppendOutcome.conflict agg expected (currentVersion db agg ten), db) := by
  simp [appendEvents, h]

theorem append_concurrency_conflict_rolls_back_wit :
    currentVersion sampleDB 7 1 ≠ 0 ∧
    appendEvents sampleDB 7 "Account" 0 [sampleEv1] 1 0 =
      (AppendOutcome.conflict 7 0 (currentVersion sampleDB 7 1), sampleDB) :=
  ⟨by decide,
   append_concurrency_conflict_rolls_back sampleDB 7 "Account" 0 [sampleEv1] 1 0 (by decide)⟩

/-- C2: a successful `append_events` call inserts, within the one transaction,
exactly one `events` row and one `outbox` row per input event; the
positionally paired rows share `event_id`, `event_type`, `event_data` and
`tenant_id`, and the pre-existing rows of both tables are untouched — so at
commit time a new event row exists iff its corresponding outbox row exists. -/
theorem append_event_outbox_paired (db : DB) (agg : Nat) (typ : String)
    (expected : Int) (evs : List DomainEvent) (ten : Nat) (now : Int)
    (ds : List JVal) (hver : currentVersion db agg ten = expected)
    (henc : encodedDatas evs = some ds) :
    ∃ newVer db',
      appendEvents db agg typ expected evs ten now = (AppendOutcome.ok newVer, db') ∧
      db'.events.length = db.events.length + evs.length ∧
      db'.outbox.length = db.outbox.length + evs.length ∧
      (db'.events.drop db.events.length).map eKey =
        (db'.outbox.drop db.outbox.length).map oKey ∧
      db'.events.take db.events.length = db.events ∧
      db'.outbox.take db.outbox.length = db.outbox := by
  have hlen := encodedDatas_length evs ds henc
  have hloop := appendLoop_spec agg typ ten now evs ds db expected henc
  have hres : appendEvents db agg typ expected evs ten now =
      (AppendOutcome.ok (expected + evs.length),
        { events := db.events ++ newEventRows agg typ ten expected evs ds,
          outbox := db.outbox ++ newOutboxRows typ ten now db.nextOutboxId evs ds,
          nextOutboxId := db.nextOutboxId + evs.length }) := by
    simp [appendEvents, hver, hloop]
  refine ⟨expected + evs.length,
    { events := db.events ++ newEventRows agg typ ten expected evs ds,
      outbox := db.outbox ++ newOutboxRows typ ten now db.nextOutboxId evs ds,
      nextOutboxId := db.nextOutboxId + evs.length },
    hres, ?_, ?_, ?_, ?_, ?_⟩
  · simp [newEventRows_length agg typ ten evs ds expected hlen]
  · simp [newOutboxRows_length typ ten now evs ds db.nextOutboxId hlen]
  · rw [List.drop_left, List.drop_left]
    exact newRows_map_keys agg typ ten now evs ds expected db.nextOutboxId
  · exact List.take_left _ _
  · exact List.take_left _ _

theorem append_event_outbox_paired_wit :
    currentVersion emptyDB 7 1 = 0 ∧
    encodedDatas [sampleEv1, sampleEv2] = some sampleDatas ∧
    (∃ newVer db',
      appendEvents emptyDB 7 "Account" 0 [sampleEv1, sampleEv2] 1 50 =
        (AppendOutcome.ok newVer, db') ∧
      db'.events.length = emptyDB.events.length + [sampleEv1, sampleEv2].length ∧
      db'.outbox.length = emptyDB.outbox.length + [sampleEv1, sampleEv2].length ∧
      (db'.events.drop emptyDB.events.length).map eKey =
        (db'.outbox.drop emptyDB.outbox.length).map oKey ∧
      db'.events.take emptyDB.events.length = emptyDB.events ∧
      db'.outbox.take emptyDB.outbox.length = emptyDB.outbox) :=
  ⟨rfl, rfl,
   append_event_outbox_paired emptyDB 7 "Account" 0 [sampleEv1, sampleEv2] 1 50
     sampleDatas rfl rfl⟩

/-- C3: a successful `append_events` call with matching versions inserts the
i-th event (1-indexed, input order) at `version = current_version + i` and
returns `current_version + n` as the new head version. -/
theorem append_assigns_contiguous_versions (db : DB) (agg : Nat) (typ : String)
    (expected : Int) (evs : List DomainEvent) (ten : Nat) (now : Int)
    (ds : List JVal) (hver : currentVersion db agg ten = expected)
    (henc : encodedDatas evs = some ds) :
    (appendEvents db agg typ expected evs ten now).1 =
      AppendOutcome.ok (currentVersion db agg ten + evs.length) ∧
    ((appendEvents db agg typ expected evs ten now).2.events.drop db.events.length).map
        (fun r => r.version) =
      (List.range evs.length).map
        (fun i : Nat => currentVersion db agg ten + 1 + (i : Int)) := by
  have hlen := encodedDatas_length evs ds henc
  have hloop := appendLoop_spec agg typ ten now evs ds db expected henc
  have hres : appendEvents db agg typ expected evs ten now =
      (AppendOutcome.ok (expected + evs.length),
        { events := db.events ++ newEventRows agg typ ten expected evs ds,
          outbox := db.outbox ++ newOutboxRows typ ten now db.nextOutboxId evs ds,
          nextOutboxId := db.nextOutboxId + evs.length }) := by
    simp [appendEvents, hver, hloop]
  rw [hres, hver]
  constructor
  · rfl
  · simp only [List.drop_left]
    exact newEventRows_map_version agg typ ten evs ds expected hlen

theorem append_assigns_contiguous_versions_wit :
    currentVersion emptyDB 7 1 = 0 ∧
    encodedDatas [sampleEv1, sampleEv2] = some sampleDatas ∧
    ((appendEvents emptyDB 7 "Account" 0 [sampleEv1, sampleEv2] 1 50).1 =
      AppendOutcome.ok (currentVersion emptyDB 7 1 + [sampleEv1, sampleEv2].length) ∧
    ((appendEvents emptyDB 7 "Account" 0 [sampleEv1, sampleEv2] 1 50).2.events.drop
        emptyDB.events.length).map (fun r => r.version) =
      (List.range [sampleEv1, sampleEv2].length).map
        (fun i : Nat => currentVersion emptyDB 7 1 + 1 + (i : Int))) :=
  ⟨rfl, rfl,
   append_assigns_contiguous_versions emptyDB 7 "Account" 0 [sampleEv1, sampleEv2] 1 50
     sampleDatas rfl rfl⟩

theorem streamRows_mem (db : DB) (agg ten : Nat) (r : EventRow)
    (h : r ∈ streamRows db agg ten) :
    r ∈ db.events ∧ r.aggregate_id = agg ∧ r.tenant_id = ten := by
  have hm := List.mem_filter.mp h
  have hb := hm.2
  simp only [Bool.and_eq_true, beq_iff_eq] at hb
  exact ⟨hm.1, hb.1, hb.2⟩

theorem append_ok_spec (db : DB) (agg : Nat) (typ : String) (expected : Int)
    (evs : List DomainEvent) (ten : Nat) (now : Int) (ds : List JVal)
    (hver : currentVersion db agg ten = expected)
    (henc : encodedDatas evs = some ds) :
    appendEvents db agg typ expected evs ten now =
      (AppendOutcome.ok (expected + evs.length),
        { events := db.events ++ newEventRows agg typ ten expected evs ds,
          outbox := db.outbox ++ newOutboxRows typ ten now db.nextOutboxId evs ds,
          nextOutboxId := db.nextOutboxId + evs.length }) := by
  simp [appendEvents, hver, appendLoop_spec agg typ ten now evs ds db expected henc]

/-- C5: `load_events` sorts the matching rows strictly ascending by `version`
(never by `created_at`; strictness is backed by the schema's
`UNIQUE (tenant_id, aggregate_id, version)` constraint, taken as the
hypothesis), each returned record being the row's `event_id`, `event_type`,
`json.loads`-decoded `event_data`, `version` and `created_at`; when no row
matches it fails with `AggregateNotFoundError` carrying the aggregate id and
the aggregate type. -/
theorem load_events_ordered_or_not_found (db : DB) (agg : Nat) (typ : String)
    (ten : Nat)
    (huniq : ((streamRows db agg ten).map (fun r => r.version)).Nodup) :
    (streamRows db agg ten = [] → loadEvents db agg typ ten = LoadOutcome.notFound agg typ) ∧
    ∀ recs, loadEvents db agg typ ten = LoadOutcome.ok recs →
      List.Pairwise (fun a b => a.version < b.version) recs ∧
      (∀ rec ∈ recs, ∃ row, row ∈ streamRows db agg ten ∧ rec = rowToRecord row) ∧
      (∀ row ∈ streamRows db agg ten, rowToRecord row ∈ recs) := by
  have hperm : List.Perm (List.insertionSort verLE (streamRows db agg ten))
      (streamRows db agg ten) := List.perm_insertionSort verLE _
  constructor
  · intro h
    simp [loadEvents, h]
  · intro recs hok
    by_cases hempty : (List.insertionSort verLE (streamRows db agg ten)).isEmpty
    · simp [loadEvents, hempty] at hok
    · simp only [loadEvents, hempty, if_false, Bool.false_eq_true, if_neg,
        LoadOutcome.ok.injEq, not_false_eq_true] at hok
      subst hok
      have hsorted : List.Pairwise verLE (List.insertionSort verLE (streamRows db agg ten)) :=
        List.sorted_insertionSort verLE _
      have hnodupv : ((List.insertionSort verLE (streamRows db agg ten)).map
          (fun r => r.version)).Nodup :=
        (hperm.map (fun r => r.version)).nodup_iff.mpr huniq
      have hne : (List.insertionSort verLE (streamRows db agg ten)).Pairwise
          (fun a b => a.version ≠ b.version) := List.pairwise_map.mp hnodupv
      refine ⟨?_, ?_, ?_⟩
      · refine List.pairwise_map.mpr ?_
        exact (hsorted.and hne).imp (fun h => lt_of_le_of_ne h.1 h.2)
      · intro rec hrec
        obtain ⟨row, hrow, heq⟩ := List.mem_map.mp hrec
        exact ⟨row, hperm.subset hrow, heq.symm⟩
      · intro row hrow
        exact List.mem_map_of_mem rowToRecord (hperm.mem_iff.mpr hrow)

theorem load_events_ordered_or_not_found_wit :
    ((streamRows sampleDB 7 1).map (fun r => r.version)).Nodup ∧
    ((streamRows sampleDB 7 1 = [] →
        loadEvents sampleDB 7 "Account" 1 = LoadOutcome.notFound 7 "Account") ∧
      ∀ recs, loadEvents sampleDB 7 "Account" 1 = LoadOutcome.ok recs →
        List.Pairwise (fun a b => a.version < b.version) recs ∧
        (∀ rec ∈ recs, ∃ row, row ∈ streamRows sampleDB 7 1 ∧ rec = rowToRecord row) ∧
        (∀ row ∈ streamRows sampleDB 7 1, rowToRecord row ∈ recs)) :=
  ⟨by decide, load_events_ordered_or_not_found sampleDB 7 "Account" 1 (by decide)⟩

/-- C6: a load scoped to tenant `T` only returns records derived from rows
written under `tenant_id = T` for the requested aggregate — never rows of a
colliding aggregate id under another tenant — and on a stream that is empty
for `(aggregate, T)` (whatever other tenants hold for that aggregate id) an
append with `expected_version = 0` numbers its events independently starting
at version 1. -/
theorem tenant_isolation_load_and_versioning (db : DB) (agg T : Nat)
    (typ : String) (evs : List DomainEvent) (ds : List JVal) (now : Int) :
    (∀ recs, loadEvents db agg typ T = LoadOutcome.ok recs →
      ∀ rec ∈ recs, ∃ row, row ∈ db.events ∧ row.tenant_id = T ∧
        row.aggregate_id = agg ∧ rec = rowToRecord row) ∧
    (streamRows db agg T = [] → encodedDatas evs = some ds →
      (appendEvents db agg typ 0 evs T now).1 = AppendOutcome.ok evs.length ∧
      ((appendEvents db agg typ 0 evs T now).2.events.drop db.events.length).map
          (fun r => r.version) =
        (List.range evs.length).map (fun i : Nat => 1 + (i : Int))) := by
  constructor
  · intro recs hok rec hrec
    have hperm : List.Perm (List.insertionSort verLE (streamRows db agg T))
        (streamRows db agg T) := List.perm_insertionSort verLE _
    by_cases hempty : (List.insertionSort verLE (streamRows db agg T)).isEmpty
    · simp [loadEvents, hempty] at hok
    · simp only [loadEvents, hempty, if_false, Bool.false_eq_true, if_neg,
        LoadOutcome.ok.injEq, not_false_eq_true] at hok
      subst hok
      obtain ⟨row, hrow, hreq⟩ := List.mem_map.mp hrec
      obtain ⟨hmem, hagg, hten⟩ := streamRows_mem db agg T row (hperm.subset hrow)
      exact ⟨row, hmem, hten, hagg, hreq.symm⟩
  · intro hempty henc
    have hver : currentVersion db agg T = 0 :=
      currentVersion_of_empty_stream db agg T hempty
    have hlen := encodedDatas_length evs ds henc
    have hres := append_ok_spec db agg typ 0 evs T now ds hver henc
    rw [hres]
    constructor
    · simp
    · simp only [List.drop_left]
      rw [newEventRows_map_version agg typ T evs ds 0 hlen]
      refine List.map_congr_left ?_
      intro i _
      omega

theorem tenant_isolation_load_and_versioning_wit :
    (∀ recs, loadEvents sampleDB 7 "Account" 2 = LoadOutcome.ok recs →
      ∀ rec ∈ recs, ∃ row, row ∈ sampleDB.events ∧ row.tenant_id = 2 ∧
        row.aggregate_id = 7 ∧ rec = rowToRecord row) ∧
    (streamRows sampleDB 7 2 = [] → encodedDatas [sampleEv1] = some (sampleDatas.take 1) →
      (appendEvents sampleDB 7 "Account" 0 [sampleEv1] 2 0).1 =
        AppendOutcome.ok [sampleEv1].length ∧
      ((appendEvents sampleDB 7 "Account" 0 [sampleEv1] 2 0).2.events.drop
          sampleDB.events.length).map (fun r => r.version) =
        (List.range [sampleEv1].length).map (fun i : Nat => 1 + (i : Int))) :=
  tenant_isolation_load_and_versioning sampleDB 7 2 "Account" [sampleEv1]
    (sampleDatas.take 1) 0

/-- C7 counterexample: the code applies no input validation — an
`append_events` call with an empty `new_events` list (and a matching
expected version) silently succeeds, returning the unchanged head version,
instead of failing with `InvalidArgument`. -/
theorem empty_append_silently_succeeds :
    appendEvents emptyDB 7 "Account" 0 [] 1 0 = (AppendOutcome.ok 0, emptyDB) := rfl

/-- C7 amended: `append_events` performs no `InvalidArgument` validation. An
empty `new_events` list with `expected_version` equal to the stream's current
version silently succeeds, returning that version and inserting no event or
outbox row; a call with `expected_version < 0` does fail and inserts nothing,
but with a `ConcurrencyError` (the current version, at least 0 under the
schema's `CHECK (version > 0)`, can never equal a negative expectation) —
not with `InvalidArgument`. -/
theorem append_no_input_validation (db : DB) (agg : Nat) (typ : String)
    (ten : Nat) (now : Int) (evs : List DomainEvent)
    (hpos : ∀ r ∈ db.events, 0 < r.version) :
    appendEvents db agg typ (currentVersion db agg ten) [] ten now =
      (AppendOutcome.ok (currentVersion db agg ten), db) ∧
    ∀ expected : Int, expected < 0 →
      appendEvents db agg typ expected evs ten now =
        (AppendOutcome.conflict agg expected (currentVersion db agg ten), db) := by
  constructor
  · simp [appendEvents, appendLoop]
  · intro expected hneg
    have h0 := currentVersion_nonneg db agg ten hpos
    have hne : currentVersion db agg ten ≠ expected := by omega
    simp [appendEvents, hne]

theorem append_no_input_validation_wit :
    (∀ r ∈ sampleDB.events, 0 < r.version) ∧
    (appendEvents sampleDB 7 "Account" (currentVersion sampleDB 7 1) [] 1 0 =
      (AppendOutcome.ok (currentVersion sampleDB 7 1), sampleDB) ∧
    ∀ expected : Int, expected < 0 →
      appendEvents sampleDB 7 "Account" expected [sampleEv1] 1 0 =
        (AppendOutcome.conflict 7 expected (currentVersion sampleDB 7 1), sampleDB)) :=
  ⟨by decide, append_no_input_validation sampleDB 7 "Account" 1 0 [sampleEv1] (by decide)⟩

theorem relayLoop_spec (busOk : OutboxRow → Bool) :
    ∀ (fetched table : List OutboxRow),
      (table.map (fun r => r.id)).Nodup →
      (fetched.map (fun r => r.id)).Nodup →
      (∀ r ∈ fetched, r ∈ table) →
      relayLoop busOk table fetched =
        ((fetched.filter busOk).length,
         table.filter (fun r =>
           !((fetched.map (fun x => x.id)).contains r.id && busOk r))) := by
  intro fetched
  induction fetched with
  | nil =>
    intro table _ _ _
    simp [relayLoop]
  | cons r rs ih =>
    intro table htab hfet hsub
    have hrtab : r ∈ table := hsub r (List.mem_cons_self r rs)
    have hrsid : r.id ∉ rs.map (fun x => x.id) := by
      have h := hfet
      simp only [List.map_cons, List.nodup_cons] at h
      exact h.1
    have hfet' : (rs.map (fun x => x.id)).Nodup := by
      simp only [List.map_cons, List.nodup_cons] at hfet
      exact hfet.2
    by_cases hb : busOk r = true
    · have hsub' : ∀ x ∈ rs, x ∈ table.filter (fun y => y.id != r.id) := by
        intro x hx
        refine List.mem_filter.mpr ⟨hsub x (List.mem_cons_of_mem r hx), ?_⟩
        have hne : x.id ≠ r.id := by
          intro hid
          exact hrsid (hid ▸ List.mem_map_of_mem (fun y => y.id) hx)
        simpa using hne
      have htab' : ((table.filter (fun y => y.id != r.id)).map (fun x => x.id)).Nodup :=
        htab.sublist ((List.filter_sublist table).map (fun x => x.id))
      simp only [relayLoop, hb, if_true]
      rw [ih (table.filter (fun y => y.id != r.id)) htab' hfet' hsub']
      simp only [Prod.mk.injEq]
      refine ⟨?_, ?_⟩
      · simp [hb]
      · rw [List.filter_filter]
        refine List.filter_congr ?_
        intro x hx
        by_cases hid : x.id = r.id
        · have hxr : x = r := List.inj_on_of_nodup_map htab hx hrtab hid
          subst hxr
          simp [hb, hid]
        · simp [hid, Ne.symm hid]
    · have hbf : busOk r = false := by
        cases hbv : busOk r
        · rfl
        · exact absurd hbv hb
      simp only [relayLoop, hbf, Bool.false_eq_true, if_false]
      rw [ih table htab hfet' (fun x hx => hsub x (List.mem_cons_of_mem r hx))]
      simp only [Prod.mk.injEq]
      refine ⟨?_, ?_⟩
      · simp [hbf]
      · refine List.filter_congr ?_
        intro x hx
        by_cases hid : x.id = r.id
        · have hxr : x = r := List.inj_on_of_nodup_map htab hx hrtab hid
          subst hxr
          simp [hbf]
        · simp [hid]

/-- C4: in one `process_outbox` invocation over a table with distinct row ids
(the `outbox.id` primary key), a fetched row is deleted iff its bus publish
was acknowledged: the returned count equals the number of acknowledged rows
of the whole fetched batch (a failing row never stops later rows from being
attempted), the resulting table keeps exactly the rows that were not fetched
or whose publish failed, every acknowledged fetched row is gone, and every
failed fetched row is retained. -/
theorem process_outbox_delete_iff_ack (table : List OutboxRow) (n : Nat)
    (busOk : OutboxRow → Bool)
    (hids : (table.map (fun r => r.id)).Nodup) :
    (processOutbox table n busOk).1 = ((fetchOutbox table n).filter busOk).length ∧
    (processOutbox table n busOk).2 =
      table.filter (fun r =>
        !(((fetchOutbox table n).map (fun x => x.id)).contains r.id && busOk r)) ∧
    ∀ r ∈ fetchOutbox table n,
      (busOk r = true → ∀ x ∈ (processOutbox table n busOk).2, x.id ≠ r.id) ∧
      (busOk r = false → r ∈ (processOutbox table n busOk).2) := by
  have hperm : List.Perm (List.insertionSort timeLE table) table :=
    List.perm_insertionSort timeLE table
  have hsub : ∀ r ∈ fetchOutbox table n, r ∈ table := by
    intro r hr
    exact hperm.subset ((List.take_sublist n (List.insertionSort timeLE table)).subset hr)
  have hfids : ((fetchOutbox table n).map (fun r => r.id)).Nodup := by
    have hsort : ((List.insertionSort timeLE table).map (fun r => r.id)).Nodup :=
      ((hperm.map (fun r => r.id)).nodup_iff).mpr hids
    exact hsort.sublist
      ((List.take_sublist n (List.insertionSort timeLE table)).map (fun r => r.id))
  have hspec := relayLoop_spec busOk (fetchOutbox table n) table hids hfids hsub
  have hfst : (processOutbox table n busOk).1 =
      ((fetchOutbox table n).filter busOk).length := by
    unfold processOutbox
    rw [hspec]
  have hsnd : (processOutbox table n busOk).2 =
      table.filter (fun r =>
        !(((fetchOutbox table n).map (fun x => x.id)).contains r.id && busOk r)) := by
    unfold processOutbox
    rw [hspec]
  refine ⟨hfst, hsnd, ?_⟩
  intro r hr
  constructor
  · intro hb x hx hidx
    rw [hsnd] at hx
    have hm := List.mem_filter.mp hx
    have hpred := hm.2
    have hcontains : ((fetchOutbox table n).map (fun y => y.id)).contains x.id = true := by
      rw [hidx]
      exact List.elem_eq_true_of_mem (List.mem_map_of_mem (fun y => y.id) hr)
    have hxr : x = r :=
      List.inj_on_of_nodup_map hids hm.1 (hsub r hr) hidx
    rw [hcontains, hxr, hb] at hpred
    simp at hpred
  · intro hb
    rw [hsnd]
    refine List.mem_filter.mpr ⟨hsub r hr, ?_⟩
    rw [hb]
    simp

theorem process_outbox_delete_iff_ack_wit :
    ((sampleOutbox.map (fun r => r.id)).Nodup) ∧
    ((processOutbox sampleOutbox 10 sampleBusOk).1 =
      ((fetchOutbox sampleOutbox 10).filter sampleBusOk).length ∧
    (processOutbox sampleOutbox 10 sampleBusOk).2 =
      sampleOutbox.filter (fun r =>
        !(((fetchOutbox sampleOutbox 10).map (fun x => x.id)).contains r.id &&
          sampleBusOk r)) ∧
    ∀ r ∈ fetchOutbox sampleOutbox 10,
      (sampleBusOk r = true →
        ∀ x ∈ (processOutbox sampleOutbox 10 sampleBusOk).2, x.id ≠ r.id) ∧
      (sampleBusOk r = false →
        r ∈ (processOutbox sampleOutbox 10 sampleBusOk).2)) :=
  ⟨by decide, process_outbox_delete_iff_ack sampleOutbox 10 sampleBusOk (by decide)⟩

/-- C8 counterexample: the relay's fetch query has no `id ASC` tie-break — on
a table whose physical order holds two rows with equal `created_at` and
descending ids, the fetched batch is not sorted by `(created_at, id)`. -/
theorem fetch_no_id_tiebreak :
    ¬ List.Pairwise (fun a b : OutboxRow =>
        a.created_at < b.created_at ∨ (a.created_at = b.created_at ∧ a.id ≤ b.id))
      (fetchOutbox c8table 2) := by
  intro h
  have hfe : fetchOutbox c8table 2 = [c8rowA, c8rowB] := rfl
  rw [hfe] at h
  have hp := (List.pairwise_cons.mp h).1 c8rowB (List.mem_singleton.mpr rfl)
  simp only [c8rowA, c8rowB] at hp
  omega

/-- C8 amended: one `process_outbox` invocation fetches at most `batch_size`
rows of the table, sorted ascending by `created_at` only (rows with equal
`created_at` come in unspecified order — the query has no `id ASC`
tie-break), and attempts publication over exactly that fetched list in
fetched order. -/
theorem fetch_sorted_by_created_at_only (table : List OutboxRow) (n : Nat) :
    (fetchOutbox table n).length ≤ n ∧
    List.Pairwise timeLE (fetchOutbox table n) ∧
    (∀ r ∈ fetchOutbox table n, r ∈ table) ∧
    ∀ busOk : OutboxRow → Bool,
      processOutbox table n busOk = relayLoop busOk table (fetchOutbox table n) := by
  refine ⟨?_, ?_, ?_, fun _ => rfl⟩
  · exact List.length_take_le n (List.insertionSort timeLE table)
  · exact (List.sorted_insertionSort timeLE table).sublist
      (List.take_sublist n (List.insertionSort timeLE table))
  · intro r hr
    exact (List.perm_insertionSort timeLE table).subset
      ((List.take_sublist n (List.insertionSort timeLE table)).subset hr)

theorem fetch_sorted_by_created_at_only_wit :
    (fetchOutbox c8table 2).length ≤ 2 ∧
    List.Pairwise timeLE (fetchOutbox c8table 2) ∧
    (∀ r ∈ fetchOutbox c8table 2, r ∈ c8table) ∧
    ∀ busOk : OutboxRow → Bool,
      processOutbox c8table 2 busOk = relayLoop busOk c8table (fetchOutbox c8table 2) :=
  fetch_sorted_by_created_at_only c8table 2

/-- C9 counterexample: `decode(encode(e))` is not field-wise equal to `e` —
a `Decimal` field comes back from `json.loads` as its string form, not as a
`Decimal`, so the round trip loses the field's type. -/
theorem decode_encode_loses_decimal_type :
    (encodePy c9payload).map decodeJ ≠ some c9payload := by
  intro h
  have he : (encodePy c9payload).map decodeJ =
      some (PyVal.dict [("initial_balance", PyVal.str "10000.00")]) := rfl
  rw [he] at h
  simp only [Option.some.injEq, c9payload, PyVal.dict.injEq, List.cons.injEq,
    Prod.mk.injEq] at h
  exact PyVal.noConfusion h.1.2

mutual
theorem decodeJ_encodePy : ∀ (v : PyVal) (j : JVal),
    encodePy v = some j → decodeJ j = jsonShape v
  | .str s, j, h => by
    simp only [encodePy, Option.some.injEq] at h
    subst h; rfl
  | .int n, j, h => by
    simp only [encodePy, Option.some.injEq] at h
    subst h; rfl
  | .bool b, j, h => by
    simp only [encodePy, Option.some.injEq] at h
    subst h; rfl
  | .noneV, j, h => by
    simp only [encodePy, Option.some.injEq] at h
    subst h; rfl
  | .uuid u, j, h => by
    simp only [encodePy, Option.some.injEq] at h
    subst h; rfl
  | .decimal s, j, h => by
    simp only [encodePy, Option.some.injEq] at h
    subst h; rfl
  | .datetime iso, j, h => by
    simp only [encodePy, Option.some.injEq] at h
    subst h; rfl
  | .metadata fs, j, h => by
    simp only [encodePy, Option.map_eq_some'] at h
    obtain ⟨js, hjs, hj⟩ := h
    subst hj
    simp only [decodeJ, jsonShape, PyVal.dict.injEq]
    exact decodeJFields_encodeFields fs js hjs
  | .withValue v, j, h => by
    simp only [encodePy] at h
    simp only [jsonShape]
    exact decodeJ_encodePy v j h
  | .dict fs, j, h => by
    simp only [encodePy, Option.map_eq_some'] at h
    obtain ⟨js, hjs, hj⟩ := h
    subst hj
    simp only [decodeJ, jsonShape, PyVal.dict.injEq]
    exact decodeJFields_encodeFields fs js hjs
  | .list es, j, h => by
    simp only [encodePy, Option.map_eq_some'] at h
    obtain ⟨js, hjs, hj⟩ := h
    subst hj
    simp only [decodeJ, jsonShape, PyVal.list.injEq]
    exact decodeJList_encodeList es js hjs
  | .unknown, j, h => by
    simp only [encodePy] at h
    exact Option.noConfusion h

theorem decodeJFields_encodeFields : ∀ (fs : List (String × PyVal)) (js : List (String × JVal)),
    encodeFields fs = some js → decodeJFields js = jsonShapeFields fs
  | [], js, h => by
    simp only [encodeFields, Option.some.injEq] at h
    subst h; rfl
  | (k, v) :: rest, js, h => by
    cases hv : encodePy v with
    | none =>
      simp only [encodeFields, hv] at h
      exact Option.noConfusion h
    | some jv =>
      cases hrest : encodeFields rest with
      | none =>
        simp only [encodeFields, hv, hrest] at h
        exact Option.noConfusion h
      | some jrest =>
        simp only [encodeFields, hv, hrest, Option.some.injEq] at h
        subst h
        simp only [decodeJFields, jsonShapeFields, List.cons.injEq, Prod.mk.injEq]
        exact ⟨⟨trivial, decodeJ_encodePy v jv hv⟩, decodeJFields_encodeFields rest jrest hrest⟩

theorem decodeJList_encodeList : ∀ (es : List PyVal) (js : List JVal),
    encodeList es = some js → decodeJList js = jsonShapeList es
  | [], js, h => by
    simp only [encodeList, Option.some.injEq] at h
    subst h; rfl
  | v :: rest, js, h => by
    cases hv : encodePy v with
    | none =>
      simp only [encodeList, hv] at h
      exact Option.noConfusion h
    | some jv =>
      cases hrest : encodeList rest with
      | none =>
        simp only [encodeList, hv, hrest] at h
        exact Option.noConfusion h
      | some jrest =>
        simp only [encodeList, hv, hrest, Option.some.injEq] at h
        subst h
        simp only [decodeJList, jsonShapeList, List.cons.injEq]
        exact ⟨decodeJ_encodePy v jv hv, decodeJList_encodeList rest jrest hrest⟩
end

/-- C9 amended: the round trip preserves values but not types — whenever a
payload serialises, `json.loads` of the encoding yields the payload's
`jsonShape`: the identical record except that each `Decimal` field is its
exact decimal string, each `datetime` field its ISO string, each UUID its
string form and each enum-like field its wire value; JSON-native fields come
back unchanged. Field-wise equality with the original therefore fails
exactly on the typed fields, with no loss of value. -/
theorem decode_encode_yields_json_shape (v : PyVal) (j : JVal)
    (h : encodePy v = some j) : decodeJ j = jsonShape v :=
  decodeJ_encodePy v j h

theorem decode_encode_yields_json_shape_wit :
    encodePy c9payload = some (JVal.obj [("initial_balance", JVal.str "10000.00")]) ∧
    decodeJ (JVal.obj [("initial_balance", JVal.str "10000.00")]) = jsonShape c9payload :=
  ⟨rfl, decode_encode_yields_json_shape c9payload
    (JVal.obj [("initial_balance", JVal.str "10000.00")]) rfl⟩

mutual
theorem encodePy_none_iff : ∀ v : PyVal,
    encodePy v = Option.none ↔ hasUnknown v = true
  | .str s => by simp [encodePy, hasUnknown]
  | .int n => by simp [encodePy, hasUnknown]
  | .bool b => by simp [encodePy, hasUnknown]
  | .noneV => by simp [encodePy, hasUnknown]
  | .uuid u => by simp [encodePy, hasUnknown]
  | .decimal s => by simp [encodePy, hasUnknown]
  | .datetime iso => by simp [encodePy, hasUnknown]
  | .metadata fs => by
    simp only [encodePy, hasUnknown, Option.map_eq_none']
    exact encodeFields_none_iff fs
  | .withValue v => by
    simp only [encodePy, hasUnknown]
    exact encodePy_none_iff v
  | .dict fs => by
    simp only [encodePy, hasUnknown, Option.map_eq_none']
    exact encodeFields_none_iff fs
  | .list es => by
    simp only [encodePy, hasUnknown, Option.map_eq_none']
    exact encodeList_none_iff es
  | .unknown => by simp [encodePy, hasUnknown]

theorem encodeFields_none_iff : ∀ fs : List (String × PyVal),
    encodeFields fs = Option.none ↔ hasUnknownFields fs = true
  | [] => by simp [encodeFields, hasUnknownFields]
  | (k, v) :: rest => by
    have hv := encodePy_none_iff v
    have hr := encodeFields_none_iff rest
    simp only [hasUnknownFields, Bool.or_eq_true]
    cases hev : encodePy v with
    | none =>
      cases her : encodeFields rest with
      | none =>
        simp only [encodeFields, hev, her]
        exact ⟨fun _ => Or.inl (hv.mp hev), fun _ => trivial⟩
      | some jrest =>
        simp only [encodeFields, hev, her]
        exact ⟨fun _ => Or.inl (hv.mp hev), fun _ => trivial⟩
    | some jv =>
      cases her : encodeFields rest with
      | none =>
        simp only [encodeFields, hev, her]
        exact ⟨fun _ => Or.inr (hr.mp her), fun _ => trivial⟩
      | some jrest =>
        simp only [encodeFields, hev, her]
        constructor
        · intro hcontra
          exact Option.noConfusion hcontra
        · intro hor
          cases hor with
          | inl h1 =>
            rw [hv.mpr h1] at hev
            exact Option.noConfusion hev
          | inr h2 =>
            rw [hr.mpr h2] at her
            exact Option.noConfusion her

theorem encodeList_none_iff : ∀ es : List PyVal,
    encodeList es = Option.none ↔ hasUnknownList es = true
  | [] => by simp [encodeList, hasUnknownList]
  | v :: rest => by
    have hv := encodePy_none_iff v
    have hr := encodeList_none_iff rest
    simp only [hasUnknownList, Bool.or_eq_true]
    cases hev : encodePy v with
    | none =>
      cases her : encodeList rest with
      | none =>
        simp only [encodeList, hev, her]
        exact ⟨fun _ => Or.inl (hv.mp hev), fun _ => trivial⟩
      | some jrest =>
        simp only [encodeList, hev, her]
        exact ⟨fun _ => Or.inl (hv.mp hev), fun _ => trivial⟩
    | some jv =>
      cases her : encodeList rest with
      | none =>
        simp only [encodeList, hev, her]
        exact ⟨fun _ => Or.inr (hr.mp her), fun _ => trivial⟩
      | some jrest =>
        simp only [encodeList, hev, her]
        constructor
        · intro hcontra
          exact Option.noConfusion hcontra
        · intro hor
          cases hor with
          | inl h1 =>
            rw [hv.mpr h1] at hev
            exact Option.noConfusion hev
          | inr h2 =>
            rw [hr.mpr h2] at her
            exact Option.noConfusion her
end

/-- C10: the payload encoder's fallback is duck-typed, not enum-specific —
a value that is not a `UUID`, `Decimal`, `EventMetadata` or `datetime` but
exposes a `.value` attribute is encoded as that attribute's value (so
non-enum objects carrying `.value` are silently encoded), and serialisation
raises the underlying `TypeError` exactly for values containing an object
with none of the handled shapes. -/
theorem encoder_fallback_duck_typed :
    (∀ v : PyVal, encodePy (PyVal.withValue v) = encodePy v) ∧
    (∀ v : PyVal, encodePy v = Option.none ↔ hasUnknown v = true) :=
  ⟨fun v => by simp only [encodePy], fun v => encodePy_none_iff v⟩
